import Mathlib

/-!
Verification of the relbench sweep launcher (`run/sweep.py`) and the
node2vec link-prediction example (`examples/node2vec_link.py`).

The Python code is shallowly embedded: YAML configuration trees become an
inductive `Yaml` type, `update_nested_dict` becomes a function returning
the possibly-raised exception together with the post-state, the dispatch
loop of `main` becomes a labelled transition system, and the epoch loop of
the embedding script becomes a fold over the per-epoch validation history.
-/

namespace Relbench


/-!
The epoch loop of `examples/node2vec_link.py`.  An epoch's observable
outcome is its validation tune metric `val_metrics["link_prediction_map"]`
(modelled as a rational, since the loop only compares metrics) paired
with the parameter snapshot `copy.deepcopy(model.state_dict())` taken
after that epoch's training step (snapshots are abstracted by a type
`σ`).
-/

/-- A Python scalar value as it occurs in the sweep's hyperparameter lists
and in YAML configuration trees.  Floats are carried by their `repr`
string (only their identity and printed form matter to the sweep). -/
inductive PyVal where
  | pint (n : Int)
  | pbool (b : Bool)
  | pfloat (r : String)
  | pstr (s : String)
  | pnone
deriving DecidableEq, Repr

/-- A YAML configuration tree: nested dictionaries with scalar leaves,
as produced by `yaml.safe_load` for the sweep's config files. -/
inductive Yaml where
  | val (v : PyVal)
  | dict (entries : List (String × Yaml))
deriving Repr

/-- Dictionary lookup `d[k]` (first binding of the key wins; Python dicts
have unique keys). -/
def lookupD : List (String × Yaml) → String → Option Yaml
  | [], _ => none
  | (k, v) :: rest, key => if k = key then some v else lookupD rest key

/-- Dictionary assignment `d[k] = w` for a key that is already bound:
replaces the value of the first binding of `k`. -/
def setD : List (String × Yaml) → String → Yaml → List (String × Yaml)
  | [], _, _ => []
  | (k, v) :: rest, key, w =>
    if k = key then (k, w) :: rest else (k, v) :: setD rest key w

/-- Helper for Python's substring test `k in s` on character lists. -/
def substrAux (k : List Char) : List Char → Bool
  | [] => k.isEmpty
  | c :: rest => k.isPrefixOf (c :: rest) || substrAux k rest

/-- Python's `k in s` for strings: `k` occurs as a contiguous substring. -/
def isSubstr (k s : String) : Bool := substrAux k.data s.data

/-- The exceptions `update_nested_dict` can raise: `KeyError` when a
membership test fails, `TypeError` when `in` or indexing hits a
non-container value, `IndexError` for the empty key path. -/
inductive PyErr where
  | keyError (k : String)
  | typeError
  | indexError
deriving DecidableEq, Repr

/-- `update_nested_dict(d, key_list, value)` from `run/sweep.py`.

The Python function mutates `d` in place and may raise; the embedding
returns the raised exception (if any) together with the post-state of the
tree.  The branches mirror the source: a one-element path assigns
`d[key] = value` when `key in d`, raising `KeyError` otherwise; a longer
path recurses into `d[key]` when `key in d`, raising `KeyError`
otherwise; the empty path falls through `len(key_list) == 1` into
`key_list[0]`, an `IndexError`.  Python's `in` on a scalar raises
`TypeError`, except on a string where it is the substring test (a `True`
substring test is then followed by a `TypeError` from string
indexing/assignment). -/
def update_nested_dict (d : Yaml) : List String → PyVal → Option PyErr × Yaml
  | [], _ => (some .indexError, d)
  | [k], value =>
    match d with
    | .dict es =>
      if (lookupD es k).isSome then (none, .dict (setD es k (.val value)))
      else (some (.keyError k), d)
    | .val (.pstr s) =>
      if isSubstr k s then (some .typeError, d) else (some (.keyError k), d)
    | .val _ => (some .typeError, d)
  | k :: k2 :: rest, value =>
    match d with
    | .dict es =>
      match lookupD es k with
      | some sub =>
        let r := update_nested_dict sub (k2 :: rest) value
        (r.1, .dict (setD es k r.2))
      | none => (some (.keyError k), d)
    | .val (.pstr s) =>
      if isSubstr k s then (some .typeError, d) else (some (.keyError k), d)
    | .val _ => (some .typeError, d)

/-- Descend a key path through nested dictionaries, returning the subtree
at the path (if every level is a dictionary containing its key). -/
def getPath : Yaml → List String → Option Yaml
  | d, [] => some d
  | .dict es, k :: rest =>
    match lookupD es k with
    | some sub => getPath sub rest
    | none => none
  | .val _, _ :: _ => none

/-- Python's membership test `k in d` on a configuration tree node:
`some b` when `in` returns `b`, `none` when `in` raises `TypeError`. -/
def pyIn (k : String) : Yaml → Option Bool
  | .dict es => some (lookupD es k).isSome
  | .val (.pstr s) => some (isSubstr k s)
  | .val _ => none

/-- The key at position `i` of the path is absent at its level of
nesting: the prefix of the path reaches a level whose membership test for
that key returns `False`. -/
def absentAt (d : Yaml) (keys : List String) (i : Nat) : Prop :=
  ∃ lv, getPath d (keys.take i) = some lv ∧ pyIn (keys.getD i "") lv = some false

/-- Prefix test on key paths (used to delimit the frame of an update). -/
def isPathPre : List String → List String → Bool
  | [], _ => true
  | _ :: _, [] => false
  | a :: as, b :: bs => a == b && isPathPre as bs

/-- Two key paths are independent when neither is a prefix of the other:
an update at one cannot touch the entry at the other. -/
def PathsIndep (p q : List String) : Prop :=
  isPathPre p q = false ∧ isPathPre q p = false

instance (p q : List String) : Decidable (PathsIndep p q) := by
  unfold PathsIndep; infer_instance

/-- A concrete configuration tree used to witness `update_nested_dict_C8`. -/
def c8demo : Yaml :=
  .dict [("a", .dict [("b", .val (.pint 1))]), ("c", .val (.pint 2))]

/-- Python's `str(value)` for the scalar values of the sweep, as used in
f-strings and `'_'.join(...)` when building folder and file names. -/
def PyVal.pyStr : PyVal → String
  | .pint n => toString n
  | .pbool true => "True"
  | .pbool false => "False"
  | .pfloat r => r
  | .pstr s => s
  | .pnone => "None"

/-- The `hyperparameters` literal of `main` in `run/sweep.py` (the
commented-out entries are omitted, as in the source). -/
def hyperparameters : List (String × List PyVal) :=
  [("model.channels", [.pint 64, .pint 128]),
   ("model.use_self_join", [.pbool true]),
   ("optim.base_lr", [.pfloat "0.01", .pfloat "0.001"]),
   ("selfjoin.sim_score_type", [.pnone, .pstr "cos", .pstr "L2", .pstr "attention"])]

/-- `itertools.product(*lists)`: all tuples taking one element per list,
with the leftmost coordinate varying slowest. -/
def itProduct {α : Type} : List (List α) → List (List α)
  | [] => [[]]
  | l :: ls => l.bind (fun x => (itProduct ls).map (fun t => x :: t))

/-- `combinations = list(itertools.product(*hyperparameters.values()))`. -/
def combinations : List (List PyVal) := itProduct (hyperparameters.map Prod.snd)

/-- Helper for Python's `s.split(sep)`: accumulates the current field in
reverse and starts a new field at each separator. -/
def pySplitAux (sep : Char) : List Char → List Char → List (List Char)
  | [], acc => [acc.reverse]
  | c :: rest, acc =>
    if c = sep then acc.reverse :: pySplitAux sep rest []
    else pySplitAux sep rest (c :: acc)

/-- Python's `s.split(sep)` for a single-character separator. -/
def pySplit (s : String) (sep : Char) : List String :=
  (pySplitAux sep s.data []).map String.mk

/-- The swept key paths, `param.split('.')` for each hyperparameter. -/
def sweptPaths : List (List String) :=
  hyperparameters.map (fun pv => pySplit pv.1 '.')

/-- The per-combination name fragment
`'_'.join(f'{param}_{value}' for param, value in zip(hyperparameters.keys(), combo))`. -/
def comboTag (combo : List PyVal) : String :=
  "_".intercalate
    (((hyperparameters.map Prod.fst).zip combo).map
      (fun pv => pv.1 ++ "_" ++ pv.2.pyStr))

/-- `config_name` from `run/sweep.py`: builds the output path of the
combination's config file (`os.path.join` of a relative, non
slash-terminated folder is rendered as `folder ++ "/" ++ name`). -/
def config_name (combo : List PyVal)
    (output_folder original_config_name : String) : String :=
  output_folder ++ "/" ++
    "_".intercalate [original_config_name, comboTag combo] ++ "_run.yaml"

/-- `output_folder` as computed in `main`:
`'results/' + original_config_file.split('/')[-1][:-5]` followed by one
`_{param}_{values joined by _}` suffix per hyperparameter. -/
def output_folder_of (original_config_file : String) : String :=
  hyperparameters.foldl
    (fun acc pv => acc ++ "_" ++ pv.1 ++ "_" ++
      "_".intercalate (pv.2.map PyVal.pyStr))
    ("results/" ++ (((pySplit original_config_file '/').getLastD "").dropRight 5))

/-- `original_config_name = output_folder.split('/')[-1]`. -/
def original_config_name_of (original_config_file : String) : String :=
  (pySplit (output_folder_of original_config_file) '/').getLastD ""

/-- The sequence of config-file paths written by the generation loop of
`main` (one `yaml.dump` per hyperparameter combination, in order). -/
def writtenConfigFiles (output_folder original_config_name : String) :
    List String :=
  combinations.map (fun c => config_name c output_folder original_config_name)

/-- The inner loop of one generation iteration: the calls
`update_nested_dict(new_config, param.split('.'), value)` for the pairs
of `zip(hyperparameters.keys(), combo)`, in order; a raised exception
propagates (aborting `main`). -/
def applyUpdates : Yaml → List (List String × PyVal) → Option PyErr × Yaml
  | t, [] => (none, t)
  | t, (p, v) :: rest =>
    match update_nested_dict t p v with
    | (none, t') => applyUpdates t' rest
    | (some e, t') => (some e, t')

/-- One iteration of the generation loop for one combination. -/
def applyCombo (t : Yaml) (combo : List PyVal) : Option PyErr × Yaml :=
  applyUpdates t (sweptPaths.zip combo)

/-- The sequence of configuration trees passed to `yaml.dump`, one per
combination.  In the source each iteration starts from
`new_config = template.copy()`, a shallow (one-level) copy: every swept
path has depth two, so every `update_nested_dict` call mutates a
sub-dictionary shared with `template`, and the tree that is dumped has
exactly the value of the mutated template, which the next iteration then
starts from again.  The embedding threads that mutated template through
the loop. -/
def sweepConfigs (t : Yaml) : List (List PyVal) → List Yaml
  | [] => []
  | c :: cs =>
    match applyCombo t c with
    | (none, t') => t' :: sweepConfigs t' cs
    | (some _, _) => []

/-- A small concrete template containing all swept paths, used to
witness `sweep_config_frame_C5`. -/
def c5template : Yaml :=
  .dict
    [("model", .dict
        [("channels", .val (.pint 32)),
         ("use_self_join", .val (.pbool false)),
         ("num_layers", .val (.pint 2))]),
     ("optim", .dict [("base_lr", .val (.pfloat "0.1"))]),
     ("selfjoin", .dict [("sim_score_type", .val .pnone)]),
     ("dataset", .val (.pstr "rel-trial"))]

/-- `fast_sweep = False` in `main`. -/
def fast_sweep : Bool := false

/-- `sleep_time = 10 if fast_sweep else 30` in the dispatch loop. -/
def sleep_time (fast : Bool) : Nat := if fast then 10 else 30

/-- `gpu_ids = args.gpu_ids.split(',')` followed by `map(int, gpu_ids)`:
the device identifiers that seed the resource pool.  (`int()` of a valid
numeral is its value; on other inputs Python would raise `ValueError`
before the pool is built, outside this model.) -/
def parse_gpu_ids (s : String) : List Nat :=
  (pySplit s ',').map (fun t => t.toNat?.getD 0)

/-- The observable actions of a worker process body. -/
inductive WorkerAct where
  | print (msg : String)
  | runCmd (cmd : String)
  | putPool (gpu : Nat)
deriving DecidableEq, Repr

/-- The shell command a worker passes to `subprocess.run(..., shell=True)`:
`f'CUDA_VISIBLE_DEVICES={gpu} python run/main.py --cfg {new_config_file}
--repeat {repeats} > /dev/null 2>&1'`. -/
def command (gpu : Nat) (new_config_file : String) (repeats : Nat) : String :=
  "CUDA_VISIBLE_DEVICES=" ++ toString gpu ++ " python run/main.py --cfg " ++
    new_config_file ++ " --repeat " ++ toString repeats ++ " > /dev/null 2>&1"

/-- `create_worker(new_config_file, gpu, exp_id)` from `main`: the body
of the spawned process as its sequence of observable actions — the
`Started` print, the `subprocess.run` call, the `Finished` print, and
the final `resource_pool.put(gpu)`.  `repeats` is captured from the
enclosing scope. -/
def create_worker (new_config_file : String) (gpu : Nat) (exp_id : Nat)
    (repeats : Nat) : List WorkerAct :=
  [.print ("Started: Exp " ++ toString exp_id ++ " Config " ++
      (pySplit new_config_file '/').getLastD "" ++ ", GPU " ++
      toString gpu ++ "."),
   .runCmd (command gpu new_config_file repeats),
   .print ("Finished: Exp " ++ toString exp_id ++ " Config " ++
      (pySplit new_config_file '/').getLastD "" ++ ", GPU " ++
      toString gpu ++ "."),
   .putPool gpu]

/-- The gpu identifiers a worker body returns to the pool. -/
def putsOf (acts : List WorkerAct) : List Nat :=
  acts.filterMap (fun a => match a with
    | .putPool g => some g
    | _ => none)

/-- The state of the dispatch loop of `main` together with its spawned
workers: the FIFO resource pool, the started-but-unfinished workers with
the device each holds, the index of the next combination to launch, the
launch trace, the spawned worker bodies, and the performed sleeps. -/
structure SweepState where
  pool : List Nat
  running : List (Nat × Nat)
  next : Nat
  launched : List (Nat × Nat)
  spawned : List (List WorkerAct)
  sleeps : List Nat
deriving Repr

/-- The initial state: `resource_pool` seeded with the GPU ids in order,
nothing launched yet. -/
def initState (gpus : List Nat) : SweepState :=
  { pool := gpus, running := [], next := 0,
    launched := [], spawned := [], sleeps := [] }

inductive SweepLabel where
  | launch (gpu : Nat)
  | finish (exp_id gpu : Nat)

/-- One step of the dispatch system, with `cfgs` the combinations' config
file paths in enumeration order.  `launch` is one iteration of
`for exp_id, combo in enumerate(combinations)`: `resource_pool.get()`
blocks until the pool is non-empty and takes its front element, a worker
process built by `create_worker` for the next combination is started,
and the loop sleeps `sleep_time`.  `finish` is the completion of a
running worker, whose last action is `resource_pool.put(gpu)` — the
device it was launched with goes to the back of the pool. -/
inductive SweepStep (cfgs : List String) (repeats : Nat) :
    SweepState → SweepLabel → SweepState → Prop
  | launch (s : SweepState) (g : Nat) (rest : List Nat)
      (hpool : s.pool = g :: rest) (hnext : s.next < cfgs.length) :
      SweepStep cfgs repeats s (.launch g)
        { pool := rest,
          running := s.running ++ [(s.next, g)],
          next := s.next + 1,
          launched := s.launched ++ [(s.next, g)],
          spawned := s.spawned ++
            [create_worker (cfgs.getD s.next "") g s.next repeats],
          sleeps := s.sleeps ++ [sleep_time fast_sweep] }
  | finish (s : SweepState) (i g : Nat) (hrun : (i, g) ∈ s.running) :
      SweepStep cfgs repeats s (.finish i g)
        { pool := s.pool ++ [g],
          running := s.running.erase (i, g),
          next := s.next,
          launched := s.launched,
          spawned := s.spawned,
          sleeps := s.sleeps }

/-- States reachable by the dispatch loop and its workers. -/
inductive Reach (gpus : List Nat) (cfgs : List String) (repeats : Nat) :
    SweepState → Prop
  | init : Reach gpus cfgs repeats (initState gpus)
  | step {s s' : SweepState} {l : SweepLabel}
      (hr : Reach gpus cfgs repeats s) (hs : SweepStep cfgs repeats s l s') :
      Reach gpus cfgs repeats s'

/-- A one-worker state used to witness the finish-step part of C3. -/
def c3state : SweepState :=
  { pool := [], running := [(0, 3)], next := 1,
    launched := [(0, 3)], spawned := [create_worker "c" 3 0 1],
    sleeps := [30] }

/-- One iteration of the checkpoint selection in the epoch loop:
`if val_metrics[tune_metric] > best_val_metric: best_val_metric = ...;
state_dict = copy.deepcopy(model.state_dict())`. -/
def epochStep {σ : Type} (acc : ℚ × Option σ) (ms : ℚ × σ) : ℚ × Option σ :=
  if ms.1 > acc.1 then (ms.1, some ms.2) else acc

/-- The whole epoch loop's effect on `(best_val_metric, state_dict)`,
starting from `best_val_metric = 0` and `state_dict = None`. -/
def runEpochs {σ : Type} (hist : List (ℚ × σ)) : ℚ × Option σ :=
  hist.foldl epochStep (0, none)

/-- The value handed to the final `model.load_state_dict(state_dict)`. -/
def loadedStateDict {σ : Type} (hist : List (ℚ × σ)) : Option σ :=
  (runEpochs hist).2

theorem lookupD_setD_self (es : List (String × Yaml)) (k : String) (w : Yaml)
    (h : (lookupD es k).isSome) : lookupD (setD es k w) k = some w := by
  induction es with
  | nil => simp [lookupD] at h
  | cons e rest ih =>
    obtain ⟨k', v'⟩ := e
    by_cases hk : k' = k
    · simp [lookupD, setD, hk]
    · simp [lookupD, setD, hk] at h ⊢
      exact ih h

theorem lookupD_setD_ne (es : List (String × Yaml)) (k k' : String) (w : Yaml)
    (h : k' ≠ k) : lookupD (setD es k w) k' = lookupD es k' := by
  induction es with
  | nil => simp [setD]
  | cons e rest ih =>
    obtain ⟨k0, v0⟩ := e
    by_cases hk : k0 = k
    · subst hk
      simp [lookupD, setD, Ne.symm h]
    · simp [lookupD, setD, hk]
      by_cases hk' : k0 = k'
      · simp [hk']
      · simp [hk', ih]

theorem setD_lookup_self (es : List (String × Yaml)) (k : String) (v : Yaml)
    (h : lookupD es k = some v) : setD es k v = es := by
  induction es with
  | nil => simp [lookupD] at h
  | cons e rest ih =>
    obtain ⟨k0, v0⟩ := e
    by_cases hk : k0 = k
    · subst hk
      simp [lookupD] at h
      simp [setD, h]
    · simp [lookupD, hk] at h
      simp [setD, hk, ih h]

/-- A raising `update_nested_dict` call leaves the tree unchanged: the
only mutation in the source is the leaf assignment, which is reached only
when every membership test along the path has succeeded. -/
theorem upd_error_eq (p : List String) (v : PyVal) :
    ∀ (d : Yaml) (e : PyErr) (d' : Yaml),
      update_nested_dict d p v = (some e, d') → d' = d := by
  induction p with
  | nil =>
    intro d e d' h
    simp [update_nested_dict] at h
    exact h.2.symm
  | cons k rest ih =>
    cases rest with
    | nil =>
      intro d e d' h
      cases d with
      | dict es =>
        by_cases hl : (lookupD es k).isSome
        · simp [update_nested_dict, hl] at h
        · simp [update_nested_dict, hl] at h
          exact h.2.symm
      | val pv =>
        cases pv with
        | pstr s =>
          by_cases hs : isSubstr k s <;>
            simp [update_nested_dict, hs] at h <;> exact h.2.symm
        | pint n => simp [update_nested_dict] at h; exact h.2.symm
        | pbool b => simp [update_nested_dict] at h; exact h.2.symm
        | pfloat r => simp [update_nested_dict] at h; exact h.2.symm
        | pnone => simp [update_nested_dict] at h; exact h.2.symm
    | cons k2 rest' =>
      intro d e d' h
      cases d with
      | dict es =>
        cases hl : lookupD es k with
        | some sub =>
          simp [update_nested_dict, hl] at h
          obtain ⟨h1, h2⟩ := h
          have hsub : update_nested_dict sub (k2 :: rest') v =
              (some e, (update_nested_dict sub (k2 :: rest') v).2) := by
            rw [← h1]
          have := ih sub e _ hsub
          rw [← h2, this, setD_lookup_self es k sub hl]
        | none =>
          simp [update_nested_dict, hl] at h
          exact h.2.symm
      | val pv =>
        cases pv with
        | pstr s =>
          by_cases hs : isSubstr k s <;>
            simp [update_nested_dict, hs] at h <;> exact h.2.symm
        | pint n => simp [update_nested_dict] at h; exact h.2.symm
        | pbool b => simp [update_nested_dict] at h; exact h.2.symm
        | pfloat r => simp [update_nested_dict] at h; exact h.2.symm
        | pnone => simp [update_nested_dict] at h; exact h.2.symm

/-- `update_nested_dict` succeeds exactly when the path is non-empty and
addresses an existing entry through nested dictionaries. -/
theorem upd_ok_iff (p : List String) (v : PyVal) :
    ∀ d : Yaml, (update_nested_dict d p v).1 = none ↔
      p ≠ [] ∧ (getPath d p).isSome := by
  induction p with
  | nil => intro d; simp [update_nested_dict]
  | cons k rest ih =>
    cases rest with
    | nil =>
      intro d
      cases d with
      | dict es =>
        by_cases hl : (lookupD es k).isSome
        · obtain ⟨sub, hsub⟩ := Option.isSome_iff_exists.mp hl
          simp [update_nested_dict, hl, getPath, hsub]
        · simp [update_nested_dict, hl, getPath]
          cases hlk : lookupD es k with
          | some sub => rw [hlk] at hl; simp at hl
          | none => simp
      | val pv =>
        cases pv with
        | pstr s =>
          by_cases hs : isSubstr k s <;> simp [update_nested_dict, hs, getPath]
        | pint n => simp [update_nested_dict, getPath]
        | pbool b => simp [update_nested_dict, getPath]
        | pfloat r => simp [update_nested_dict, getPath]
        | pnone => simp [update_nested_dict, getPath]
    | cons k2 rest' =>
      intro d
      cases d with
      | dict es =>
        cases hl : lookupD es k with
        | some sub =>
          simp [update_nested_dict, hl, getPath]
          rw [ih sub]
          simp
        | none => simp [update_nested_dict, hl, getPath]
      | val pv =>
        cases pv with
        | pstr s =>
          by_cases hs : isSubstr k s <;> simp [update_nested_dict, hs, getPath]
        | pint n => simp [update_nested_dict, getPath]
        | pbool b => simp [update_nested_dict, getPath]
        | pfloat r => simp [update_nested_dict, getPath]
        | pnone => simp [update_nested_dict, getPath]

/-- After a successful update, the path holds the new value. -/
theorem upd_ok_getPath_self (p : List String) (v : PyVal) :
    ∀ (d d' : Yaml), update_nested_dict d p v = (none, d') →
      getPath d' p = some (.val v) := by
  induction p with
  | nil => intro d d' h; simp [update_nested_dict] at h
  | cons k rest ih =>
    cases rest with
    | nil =>
      intro d d' h
      cases d with
      | dict es =>
        by_cases hl : (lookupD es k).isSome
        · simp [update_nested_dict, hl] at h
          rw [← h]
          simp [getPath, lookupD_setD_self es k _ hl]
        · simp [update_nested_dict, hl] at h
      | val pv =>
        cases pv with
        | pstr s => by_cases hs : isSubstr k s <;> simp [update_nested_dict, hs] at h
        | pint n => simp [update_nested_dict] at h
        | pbool b => simp [update_nested_dict] at h
        | pfloat r => simp [update_nested_dict] at h
        | pnone => simp [update_nested_dict] at h
    | cons k2 rest' =>
      intro d d' h
      cases d with
      | dict es =>
        cases hl : lookupD es k with
        | some sub =>
          simp [update_nested_dict, hl] at h
          obtain ⟨h1, h2⟩ := h
          have hl2 : (lookupD es k).isSome := by simp [hl]
          rw [← h2]
          simp [getPath, lookupD_setD_self es k _ hl2]
          exact ih sub _ (by rw [← h1])
        | none => simp [update_nested_dict, hl] at h
      | val pv =>
        cases pv with
        | pstr s => by_cases hs : isSubstr k s <;> simp [update_nested_dict, hs] at h
        | pint n => simp [update_nested_dict] at h
        | pbool b => simp [update_nested_dict] at h
        | pfloat r => simp [update_nested_dict] at h
        | pnone => simp [update_nested_dict] at h

/-- Frame property: a successful update at path `p` leaves the entry at
every path independent of `p` (neither a prefix of the other) unchanged. -/
theorem upd_ok_getPath_indep (p : List String) (v : PyVal) :
    ∀ (d d' : Yaml) (q : List String), update_nested_dict d p v = (none, d') →
      isPathPre p q = false → isPathPre q p = false →
      getPath d' q = getPath d q := by
  induction p with
  | nil => intro d d' q h _ _; simp [update_nested_dict] at h
  | cons k rest ih =>
    cases rest with
    | nil =>
      intro d d' q h hp hq
      cases d with
      | dict es =>
        by_cases hl : (lookupD es k).isSome
        · simp [update_nested_dict, hl] at h
          cases q with
          | nil => simp [isPathPre] at hq
          | cons k' q' =>
            by_cases hk : k = k'
            · subst hk
              cases q' with
              | nil => simp [isPathPre] at hp
              | cons a b => simp [isPathPre] at hp
            · rw [← h]
              simp [getPath, lookupD_setD_ne es k k' _ (Ne.symm hk)]
        · simp [update_nested_dict, hl] at h
      | val pv =>
        cases pv with
        | pstr s => by_cases hs : isSubstr k s <;> simp [update_nested_dict, hs] at h
        | pint n => simp [update_nested_dict] at h
        | pbool b => simp [update_nested_dict] at h
        | pfloat r => simp [update_nested_dict] at h
        | pnone => simp [update_nested_dict] at h
    | cons k2 rest' =>
      intro d d' q h hp hq
      cases d with
      | dict es =>
        cases hl : lookupD es k with
        | some sub =>
          simp [update_nested_dict, hl] at h
          obtain ⟨h1, h2⟩ := h
          have hl2 : (lookupD es k).isSome := by simp [hl]
          cases q with
          | nil => simp [isPathPre] at hq
          | cons k' q' =>
            by_cases hk : k = k'
            · subst hk
              simp [isPathPre] at hp hq
              rw [← h2]
              simp [getPath, lookupD_setD_self es k _ hl2, hl]
              exact ih sub _ q' (by rw [← h1]) hp hq
            · rw [← h2]
              simp [getPath, lookupD_setD_ne es k k' _ (Ne.symm hk)]
        | none => simp [update_nested_dict, hl] at h
      | val pv =>
        cases pv with
        | pstr s => by_cases hs : isSubstr k s <;> simp [update_nested_dict, hs] at h
        | pint n => simp [update_nested_dict] at h
        | pbool b => simp [update_nested_dict] at h
        | pfloat r => simp [update_nested_dict] at h
        | pnone => simp [update_nested_dict] at h

theorem absentAt_cons_succ (es : List (String × Yaml)) (k : String) (sub : Yaml)
    (hl : lookupD es k = some sub) (tl : List String) (j : Nat) :
    absentAt (.dict es) (k :: tl) (j + 1) ↔ absentAt sub tl j := by
  simp [absentAt, List.take_succ_cons, getPath, hl, List.getD_cons_succ]

/-- `update_nested_dict` raises `KeyError` exactly when some key of the
path is absent at its level of nesting (its membership test returns
`False` at the level reached by the preceding keys). -/
theorem upd_keyError_iff (p : List String) (v : PyVal) :
    ∀ d : Yaml, (∃ k, (update_nested_dict d p v).1 = some (.keyError k)) ↔
      ∃ i, i < p.length ∧ absentAt d p i := by
  induction p with
  | nil => intro d; simp [update_nested_dict]
  | cons k rest ih =>
    cases rest with
    | nil =>
      intro d
      cases d with
      | dict es =>
        by_cases hl : (lookupD es k).isSome <;>
          simp [update_nested_dict, hl, absentAt, getPath, pyIn]
      | val pv =>
        cases pv with
        | pstr s =>
          by_cases hs : isSubstr k s <;>
            simp [update_nested_dict, hs, absentAt, getPath, pyIn]
        | pint n => simp [update_nested_dict, absentAt, getPath, pyIn]
        | pbool b => simp [update_nested_dict, absentAt, getPath, pyIn]
        | pfloat r => simp [update_nested_dict, absentAt, getPath, pyIn]
        | pnone => simp [update_nested_dict, absentAt, getPath, pyIn]
    | cons k2 rest' =>
      intro d
      cases d with
      | dict es =>
        cases hl : lookupD es k with
        | some sub =>
          simp only [update_nested_dict, hl]
          constructor
          · rintro ⟨k', hk'⟩
            obtain ⟨i, hi, habs⟩ := (ih sub).mp ⟨k', hk'⟩
            exact ⟨i + 1, by simpa using Nat.succ_lt_succ hi,
              (absentAt_cons_succ es k sub hl _ i).mpr habs⟩
          · rintro ⟨i, hi, habs⟩
            cases i with
            | zero =>
              exfalso
              obtain ⟨lv, hlv, hmem⟩ := habs
              simp [getPath] at hlv
              rw [← hlv] at hmem
              simp [pyIn, hl] at hmem
            | succ j =>
              have habs' := (absentAt_cons_succ es k sub hl _ j).mp habs
              exact (ih sub).mpr ⟨j, by simpa using Nat.lt_of_succ_lt_succ hi, habs'⟩
        | none =>
          simp [update_nested_dict, hl]
          exact ⟨0, by omega, ⟨.dict es, by simp [getPath], by simp [pyIn, hl]⟩⟩
      | val pv =>
        cases pv with
        | pstr s =>
          by_cases hs : isSubstr k s
          · simp [update_nested_dict, hs]
            intro i hi
            match i with
            | 0 => simp [absentAt, getPath, pyIn, hs]
            | j + 1 => simp [absentAt, List.take_succ_cons, getPath]
          · simp [update_nested_dict, hs]
            exact ⟨0, by omega, ⟨.val (.pstr s), by simp [getPath], by simp [pyIn, hs]⟩⟩
        | pint n =>
          simp [update_nested_dict]
          intro i hi
          match i with
          | 0 => simp [absentAt, getPath, pyIn]
          | j + 1 => simp [absentAt, List.take_succ_cons, getPath]
        | pbool b =>
          simp [update_nested_dict]
          intro i hi
          match i with
          | 0 => simp [absentAt, getPath, pyIn]
          | j + 1 => simp [absentAt, List.take_succ_cons, getPath]
        | pfloat r =>
          simp [update_nested_dict]
          intro i hi
          match i with
          | 0 => simp [absentAt, getPath, pyIn]
          | j + 1 => simp [absentAt, List.take_succ_cons, getPath]
        | pnone =>
          simp [update_nested_dict]
          intro i hi
          match i with
          | 0 => simp [absentAt, getPath, pyIn]
          | j + 1 => simp [absentAt, List.take_succ_cons, getPath]

/-- C8: for every dictionary `d` and non-empty key path,
`update_nested_dict` raises `KeyError` if and only if some key of the
path is absent at its level of nesting; when it raises, `d` is left
entirely unchanged (atomicity); and when it succeeds, exactly the
addressed nested entry is set to the new value while the entry at every
path independent of the addressed one is unchanged. -/
theorem update_nested_dict_C8 (d : Yaml) (p : List String) (v : PyVal)
    (hp : p ≠ []) :
    ((∃ k, (update_nested_dict d p v).1 = some (.keyError k)) ↔
      ∃ i, i < p.length ∧ absentAt d p i) ∧
    (∀ e d', update_nested_dict d p v = (some e, d') → d' = d) ∧
    (∀ d', update_nested_dict d p v = (none, d') →
      getPath d' p = some (.val v) ∧
      ∀ q, PathsIndep p q → getPath d' q = getPath d q) := by
  refine ⟨upd_keyError_iff p v d, fun e d' h => upd_error_eq p v d e d' h, ?_⟩
  intro d' h
  exact ⟨upd_ok_getPath_self p v d d' h,
    fun q hq => upd_ok_getPath_indep p v d d' q h hq.1 hq.2⟩

theorem update_nested_dict_C8_witness :
    (["a", "b"] : List String) ≠ [] ∧
    (((∃ k, (update_nested_dict c8demo ["a", "b"] (.pbool true)).1 =
        some (.keyError k)) ↔
      ∃ i, i < (["a", "b"] : List String).length ∧ absentAt c8demo ["a", "b"] i) ∧
    (∀ e d', update_nested_dict c8demo ["a", "b"] (.pbool true) = (some e, d') →
      d' = c8demo) ∧
    (∀ d', update_nested_dict c8demo ["a", "b"] (.pbool true) = (none, d') →
      getPath d' ["a", "b"] = some (.val (.pbool true)) ∧
      ∀ q, PathsIndep ["a", "b"] q → getPath d' q = getPath c8demo q)) :=
  ⟨by decide, update_nested_dict_C8 c8demo ["a", "b"] (.pbool true) (by decide)⟩

theorem itProduct_length {α : Type} (ls : List (List α)) :
    (itProduct ls).length = (ls.map List.length).prod := by
  induction ls with
  | nil => simp [itProduct]
  | cons l ls ih =>
    simp [itProduct, ih]
    induction l with
    | nil => simp
    | cons x l ihl => simp [ihl, Nat.succ_mul, ih, Nat.add_comm]

theorem itProduct_mem_length {α : Type} (ls : List (List α)) :
    ∀ c ∈ itProduct ls, c.length = ls.length := by
  induction ls with
  | nil => simp [itProduct]
  | cons l ls ih =>
    intro c hc
    simp [itProduct] at hc
    obtain ⟨x, _, t, ht, rfl⟩ := hc
    simp [ih t ht]

theorem string_append_cancel (pre suf x y : String)
    (h : pre ++ x ++ suf = pre ++ y ++ suf) : x = y := by
  have hd := congrArg String.data h
  simp [String.data_append] at hd
  cases x; cases y; simp at hd; rw [hd]

theorem comboTag_nodup : (combinations.map comboTag).Nodup := by decide

/-- C4: one config file is generated per element of the Cartesian product
of the hyperparameter value lists; the number of files written equals the
product of the list lengths, and distinct combinations are written to
distinct paths. -/
theorem sweep_grid_files_C4 (output_folder original_config_name : String) :
    (writtenConfigFiles output_folder original_config_name).length =
      (hyperparameters.map (fun pv => pv.2.length)).prod ∧
    (writtenConfigFiles output_folder original_config_name).Nodup := by
  constructor
  · simp [writtenConfigFiles, combinations, itProduct_length, List.map_map]
    rfl
  · have hwrap : ∀ t1 t2 : String,
        output_folder ++ "/" ++ "_".intercalate [original_config_name, t1] ++
            "_run.yaml" =
          output_folder ++ "/" ++ "_".intercalate [original_config_name, t2] ++
            "_run.yaml" → t1 = t2 := by
      intro t1 t2 h
      have h2 : (output_folder ++ "/" ++ original_config_name ++ "_") ++ t1 ++
          "_run.yaml" =
          (output_folder ++ "/" ++ original_config_name ++ "_") ++ t2 ++
          "_run.yaml" := by
        have e1 : "_".intercalate [original_config_name, t1] =
            original_config_name ++ "_" ++ t1 := rfl
        have e2 : "_".intercalate [original_config_name, t2] =
            original_config_name ++ "_" ++ t2 := rfl
        rw [e1, e2] at h
        calc (output_folder ++ "/" ++ original_config_name ++ "_") ++ t1 ++
            "_run.yaml"
            = output_folder ++ "/" ++ (original_config_name ++ "_" ++ t1) ++
              "_run.yaml" := by simp [String.append_assoc]
          _ = output_folder ++ "/" ++ (original_config_name ++ "_" ++ t2) ++
              "_run.yaml" := h
          _ = (output_folder ++ "/" ++ original_config_name ++ "_") ++ t2 ++
              "_run.yaml" := by simp [String.append_assoc]
      exact string_append_cancel _ _ _ _ h2
    have : writtenConfigFiles output_folder original_config_name =
        (combinations.map comboTag).map
          (fun t => output_folder ++ "/" ++
            "_".intercalate [original_config_name, t] ++ "_run.yaml") := by
      simp [writtenConfigFiles, config_name, List.map_map]
    rw [this]
    exact comboTag_nodup.map (fun t1 t2 h => hwrap t1 t2 h)

theorem sweep_grid_files_C4_witness :
    (writtenConfigFiles (output_folder_of "run/configs/base.yaml")
        (original_config_name_of "run/configs/base.yaml")).length =
      (hyperparameters.map (fun pv => pv.2.length)).prod ∧
    (writtenConfigFiles (output_folder_of "run/configs/base.yaml")
        (original_config_name_of "run/configs/base.yaml")).Nodup :=
  sweep_grid_files_C4 (output_folder_of "run/configs/base.yaml")
    (original_config_name_of "run/configs/base.yaml")

theorem sweptPaths_ne_nil : ∀ p ∈ sweptPaths, p ≠ [] := by decide

theorem sweptPaths_pairwise : sweptPaths.Pairwise PathsIndep := by decide

theorem pathsIndep_symm {p q : List String} (h : PathsIndep p q) :
    PathsIndep q p := ⟨h.2, h.1⟩

theorem mem_zip_getD {α β : Type} (da : α) (db : β) :
    ∀ (as : List α) (bs : List β) (j : Nat), j < as.length → j < bs.length →
      (as.getD j da, bs.getD j db) ∈ as.zip bs := by
  intro as
  induction as with
  | nil => intro bs j h; simp at h
  | cons a as ih =>
    intro bs j h1 h2
    cases bs with
    | nil => simp at h2
    | cons b bs =>
      cases j with
      | zero => simp [List.zip_cons_cons]
      | succ j =>
        rw [List.getD_cons_succ, List.getD_cons_succ, List.zip_cons_cons]
        exact List.mem_cons_of_mem _ (ih bs j (by simpa using h1) (by simpa using h2))

/-- Running a list of updates at pairwise-independent, existing paths
succeeds, sets each path to its value, and leaves independent paths
unchanged. -/
theorem applyUpdates_ok (pvs : List (List String × PyVal)) :
    ∀ t : Yaml,
      (∀ pr ∈ pvs, pr.1 ≠ [] ∧ (getPath t pr.1).isSome) →
      (pvs.map Prod.fst).Pairwise PathsIndep →
      ∃ t', applyUpdates t pvs = (none, t') ∧
        (∀ pr ∈ pvs, getPath t' pr.1 = some (.val pr.2)) ∧
        (∀ q, (∀ pr ∈ pvs, PathsIndep pr.1 q) → getPath t' q = getPath t q) := by
  induction pvs with
  | nil =>
    intro t _ _
    exact ⟨t, rfl, by simp, fun q _ => rfl⟩
  | cons pv rest ih =>
    intro t hpre hpw
    obtain ⟨p, v⟩ := pv
    have hp := hpre (p, v) (List.mem_cons_self _ _)
    have h1 : (update_nested_dict t p v).1 = none :=
      (upd_ok_iff p v t).mpr ⟨hp.1, hp.2⟩
    have hu : update_nested_dict t p v = (none, (update_nested_dict t p v).2) := by
      rw [← h1]
    set t1 := (update_nested_dict t p v).2 with ht1
    have hpw' : (p :: rest.map Prod.fst).Pairwise PathsIndep := hpw
    have hpwrest : (rest.map Prod.fst).Pairwise PathsIndep :=
      (List.pairwise_cons.mp hpw').2
    have hindep : ∀ pr ∈ rest, PathsIndep p pr.1 := by
      intro pr hpr
      exact (List.pairwise_cons.mp hpw').1 pr.1
        (List.mem_map_of_mem Prod.fst hpr)
    have hpre1 : ∀ pr ∈ rest, pr.1 ≠ [] ∧ (getPath t1 pr.1).isSome := by
      intro pr hpr
      have hind := hindep pr hpr
      have := upd_ok_getPath_indep p v t t1 pr.1 hu hind.1 hind.2
      exact ⟨(hpre pr (by simp [hpr])).1, this ▸ (hpre pr (by simp [hpr])).2⟩
    obtain ⟨t', happ, hset, hframe⟩ := ih t1 hpre1 hpwrest
    refine ⟨t', ?_, ?_, ?_⟩
    · simp [applyUpdates, hu, happ]
    · intro pr hpr
      rcases List.mem_cons.mp hpr with heq | hmem
      · subst heq
        have hsetp : getPath t1 p = some (.val v) :=
          upd_ok_getPath_self p v t t1 hu
        have : getPath t' p = getPath t1 p :=
          hframe p (fun pr hpr => pathsIndep_symm (hindep pr hpr))
        rw [this, hsetp]
      · exact hset pr hmem
    · intro q hq
      have h2 : getPath t' q = getPath t1 q :=
        hframe q (fun pr hpr => hq pr (by simp [hpr]))
      have h3 : getPath t1 q = getPath t q := by
        have hind := hq (p, v) (by simp)
        exact upd_ok_getPath_indep p v t t1 q hu hind.1 hind.2
      rw [h2, h3]

/-- The generation loop, specified: one dumped tree per combination; the
`i`-th dumped tree holds the `i`-th combination's values at the swept
paths and agrees with the original template everywhere independent of
the swept paths. -/
theorem sweepConfigs_spec (combos : List (List PyVal))
    (hlen : ∀ c ∈ combos, c.length = sweptPaths.length) :
    ∀ t : Yaml, (∀ p ∈ sweptPaths, (getPath t p).isSome) →
      (sweepConfigs t combos).length = combos.length ∧
      ∀ i, i < combos.length →
        (∀ j, j < sweptPaths.length →
          getPath ((sweepConfigs t combos).getD i (.dict []))
              (sweptPaths.getD j []) =
            some (.val ((combos.getD i []).getD j .pnone))) ∧
        (∀ q, (∀ p ∈ sweptPaths, PathsIndep p q) →
          getPath ((sweepConfigs t combos).getD i (.dict [])) q =
            getPath t q) := by
  induction combos with
  | nil =>
    intro t _
    exact ⟨rfl, fun i hi => absurd hi (by simp)⟩
  | cons c cs ih =>
    intro t ht
    have hclen : c.length = sweptPaths.length := hlen c (by simp)
    have hmapfst : (sweptPaths.zip c).map Prod.fst = sweptPaths :=
      List.map_fst_zip _ _ (le_of_eq hclen.symm)
    have hpre : ∀ pr ∈ sweptPaths.zip c, pr.1 ≠ [] ∧ (getPath t pr.1).isSome := by
      intro pr hpr
      obtain ⟨pin, _⟩ := List.of_mem_zip hpr
      exact ⟨sweptPaths_ne_nil pr.1 pin, ht pr.1 pin⟩
    have hpw : ((sweptPaths.zip c).map Prod.fst).Pairwise PathsIndep := by
      rw [hmapfst]; exact sweptPaths_pairwise
    obtain ⟨t1, happ, hset, hframe⟩ := applyUpdates_ok (sweptPaths.zip c) t hpre hpw
    have hsweep : sweepConfigs t (c :: cs) = t1 :: sweepConfigs t1 cs := by
      simp [sweepConfigs, applyCombo, happ]
    have ht1 : ∀ p ∈ sweptPaths, (getPath t1 p).isSome := by
      intro p hpin
      obtain ⟨pr, hprz, hpr1⟩ := List.mem_map.mp (hmapfst ▸ hpin)
      rw [← hpr1]
      simp [hset pr hprz]
    obtain ⟨ihlen, ihprops⟩ := ih (fun c' hc' => hlen c' (by simp [hc'])) t1 ht1
    constructor
    · simp [hsweep, ihlen]
    · intro i hi
      cases i with
      | zero =>
        constructor
        · intro j hj
          have hj2 : j < c.length := hclen ▸ hj
          have hmem := mem_zip_getD ([] : List String) PyVal.pnone
            sweptPaths c j hj hj2
          simpa [hsweep] using hset _ hmem
        · intro q hq
          have : ∀ pr ∈ sweptPaths.zip c, PathsIndep pr.1 q := by
            intro pr hpr
            exact hq pr.1 (List.of_mem_zip hpr).1
          simpa [hsweep] using hframe q this
      | succ i' =>
        have hi' : i' < cs.length := by simpa using Nat.lt_of_succ_lt_succ hi
        obtain ⟨hvals, hfr⟩ := ihprops i' hi'
        constructor
        · intro j hj
          simpa [hsweep, List.getD_cons_succ] using hvals j hj
        · intro q hq
          have h1 : getPath ((sweepConfigs t1 cs).getD i' (.dict [])) q =
              getPath t1 q := hfr q hq
          have h2 : getPath t1 q = getPath t q := by
            refine hframe q ?_
            intro pr hpr
            exact hq pr.1 (List.of_mem_zip hpr).1
          simpa [hsweep, List.getD_cons_succ] using h1.trans h2

theorem combinations_mem_length :
    ∀ c ∈ combinations, c.length = sweptPaths.length := by
  intro c hc
  have := itProduct_mem_length (hyperparameters.map Prod.snd) c hc
  simpa [sweptPaths] using this

/-- C5: each configuration variant written to disk equals the template
loaded from the original config file except at the swept hyperparameter
paths, which hold that combination's values; the entry at every path
independent of the swept paths is dumped unchanged. -/
theorem sweep_config_frame_C5 (t : Yaml)
    (ht : ∀ p ∈ sweptPaths, (getPath t p).isSome) :
    (sweepConfigs t combinations).length = combinations.length ∧
    ∀ i, i < combinations.length →
      (∀ j, j < sweptPaths.length →
        getPath ((sweepConfigs t combinations).getD i (.dict []))
            (sweptPaths.getD j []) =
          some (.val ((combinations.getD i []).getD j .pnone))) ∧
      (∀ q, (∀ p ∈ sweptPaths, PathsIndep p q) →
        getPath ((sweepConfigs t combinations).getD i (.dict [])) q =
          getPath t q) :=
  sweepConfigs_spec combinations combinations_mem_length t ht

theorem sweep_config_frame_C5_witness :
    (∀ p ∈ sweptPaths, (getPath c5template p).isSome) ∧
    ((sweepConfigs c5template combinations).length = combinations.length ∧
    ∀ i, i < combinations.length →
      (∀ j, j < sweptPaths.length →
        getPath ((sweepConfigs c5template combinations).getD i (.dict []))
            (sweptPaths.getD j []) =
          some (.val ((combinations.getD i []).getD j .pnone))) ∧
      (∀ q, (∀ p ∈ sweptPaths, PathsIndep p q) →
        getPath ((sweepConfigs c5template combinations).getD i (.dict [])) q =
          getPath c5template q)) :=
  ⟨by decide, sweep_config_frame_C5 c5template (by decide)⟩

theorem perm_cons_erase_pair :
    ∀ (l : List (Nat × Nat)) (a : Nat × Nat), a ∈ l → l.Perm (a :: l.erase a) := by
  intro l a h
  induction l with
  | nil => simp at h
  | cons b l ih =>
    rw [List.erase_cons]
    by_cases hb : b = a
    · subst hb
      simp
    · have hbeq : (b == a) = false := by simpa using hb
      rw [if_neg (by simp [hbeq])]
      have hmem : a ∈ l := by
        rcases List.mem_cons.mp h with h1 | h1
        · exact absurd h1.symm hb
        · exact h1
      exact ((ih hmem).cons b).trans (List.Perm.swap a b _)

theorem reach_pool_perm {gpus : List Nat} {cfgs : List String} {repeats : Nat}
    {s : SweepState} (hr : Reach gpus cfgs repeats s) :
    (s.pool ++ s.running.map Prod.snd).Perm gpus := by
  induction hr with
  | init => simpa [initState] using List.Perm.refl gpus
  | @step s s' l hr hs ih =>
    cases hs with
    | launch g rest hpool hnext =>
      simp only [List.map_append, List.map_cons, List.map_nil]
      have h1 : (rest ++ (s.running.map Prod.snd ++ [g])).Perm
          (g :: (rest ++ s.running.map Prod.snd)) := by
        rw [← List.append_assoc]
        exact List.perm_append_comm
      have h2 : (g :: (rest ++ s.running.map Prod.snd)).Perm gpus := by
        have := ih
        rw [hpool] at this
        simpa using this
      exact h1.trans h2
    | finish i g hrun =>
      have hperm : s.running.Perm ((i, g) :: s.running.erase (i, g)) :=
        perm_cons_erase_pair s.running (i, g) hrun
      have hmap : (s.running.map Prod.snd).Perm
          (g :: (s.running.erase (i, g)).map Prod.snd) := by
        simpa using hperm.map Prod.snd
      have h1 : ((s.pool ++ [g]) ++ (s.running.erase (i, g)).map Prod.snd).Perm
          (s.pool ++ s.running.map Prod.snd) := by
        rw [List.append_assoc]
        exact (List.Perm.append_left s.pool (by simpa using hmap.symm))
      exact h1.trans ih

/-- C1: with the pool seeded by the device ids parsed from `--gpu-ids`,
the queue contents plus the devices held by started-but-unfinished
workers are at all reachable states a permutation of the seed; hence at
most `N` workers run at once, and (when the seed has no duplicates)
every device is at all times either in the queue or held by exactly one
running worker. -/
theorem sweep_pool_invariant_C1 (arg : String) (cfgs : List String)
    (repeats : Nat) (s : SweepState)
    (hr : Reach (parse_gpu_ids arg) cfgs repeats s) :
    (s.pool ++ s.running.map Prod.snd).Perm (parse_gpu_ids arg) ∧
    s.running.length ≤ (parse_gpu_ids arg).length ∧
    ((parse_gpu_ids arg).Nodup → ∀ g ∈ parse_gpu_ids arg,
      s.pool.count g + (s.running.map Prod.snd).count g = 1) := by
  have hperm := reach_pool_perm hr
  refine ⟨hperm, ?_, ?_⟩
  · have := hperm.length_eq
    simp at this
    omega
  · intro hnd g hg
    have hc : (s.pool ++ s.running.map Prod.snd).count g =
        (parse_gpu_ids arg).count g := hperm.count_eq g
    rw [List.count_append] at hc
    rw [hc]
    exact List.count_eq_one_of_mem hnd hg

theorem sweep_pool_invariant_C1_witness :
    Reach (parse_gpu_ids "0,1,2,3") [] 1 (initState (parse_gpu_ids "0,1,2,3")) ∧
    (((initState (parse_gpu_ids "0,1,2,3")).pool ++
        (initState (parse_gpu_ids "0,1,2,3")).running.map Prod.snd).Perm
      (parse_gpu_ids "0,1,2,3") ∧
    (initState (parse_gpu_ids "0,1,2,3")).running.length ≤
      (parse_gpu_ids "0,1,2,3").length ∧
    ((parse_gpu_ids "0,1,2,3").Nodup → ∀ g ∈ parse_gpu_ids "0,1,2,3",
      (initState (parse_gpu_ids "0,1,2,3")).pool.count g +
        ((initState (parse_gpu_ids "0,1,2,3")).running.map Prod.snd).count g =
        1)) :=
  ⟨Reach.init, sweep_pool_invariant_C1 "0,1,2,3" [] 1 _ Reach.init⟩

/-- C2: a worker is started only after a device has been removed from the
front of the pool; with an empty pool no launch step exists (the loop
blocks in `resource_pool.get()`), and the only step that refills the
pool is the completion of a running worker returning its device. -/
theorem sweep_dispatch_blocking_C2 (cfgs : List String) (repeats : Nat) :
    (∀ s g s', SweepStep cfgs repeats s (.launch g) s' →
      s.pool = g :: s'.pool ∧ s'.running = s.running ++ [(s.next, g)]) ∧
    (∀ s, s.pool = [] → ∀ g s', ¬ SweepStep cfgs repeats s (.launch g) s') ∧
    (∀ s i g s', SweepStep cfgs repeats s (.finish i g) s' →
      s'.pool = s.pool ++ [g]) := by
  refine ⟨?_, ?_, ?_⟩
  · intro s g s' h
    cases h with
    | launch g2 rest hpool hnext => exact ⟨hpool, rfl⟩
  · intro s hempty g s' h
    cases h with
    | launch g2 rest hpool hnext =>
      rw [hempty] at hpool
      exact List.noConfusion hpool
  · intro s i g s' h
    cases h with
    | finish i2 g2 hrun => rfl

theorem sweep_dispatch_blocking_C2_witness :
    (SweepState.mk [] [] 0 [] [] []).pool = [] ∧
    ¬ SweepStep ["c"] 1 (SweepState.mk [] [] 0 [] [] [])
      (.launch 0) (initState []) :=
  ⟨rfl, (sweep_dispatch_blocking_C2 ["c"] 1).2.1 _ rfl 0 (initState [])⟩

/-- C3: a worker body performs exactly one `resource_pool.put`, of
exactly the device identifier it was created with, as its final action
after the training subprocess; correspondingly, a finish step appends
that worker's device to the pool and removes the worker from the running
set. -/
theorem sweep_worker_returns_gpu_C3 (cfg : String) (g i r : Nat) :
    putsOf (create_worker cfg g i r) = [g] ∧
    (create_worker cfg g i r).getLastD (.putPool 0) = .putPool g ∧
    (∀ (cfgs : List String) (repeats : Nat) (s s' : SweepState) (i' g' : Nat),
      SweepStep cfgs repeats s (.finish i' g') s' →
      (i', g') ∈ s.running ∧ s'.pool = s.pool ++ [g'] ∧
      s'.running = s.running.erase (i', g')) := by
  refine ⟨rfl, rfl, ?_⟩
  intro cfgs repeats s s' i' g' h
  cases h with
  | finish i2 g2 hrun => exact ⟨hrun, rfl, rfl⟩

theorem sweep_worker_returns_gpu_C3_witness :
    putsOf (create_worker "c" 3 0 1) = [3] ∧
    (create_worker "c" 3 0 1).getLastD (.putPool 0) = .putPool 3 ∧
    SweepStep ["c"] 1 c3state (.finish 0 3)
      { pool := c3state.pool ++ [3],
        running := c3state.running.erase (0, 3),
        next := c3state.next, launched := c3state.launched,
        spawned := c3state.spawned, sleeps := c3state.sleeps } ∧
    ((0, 3) ∈ c3state.running ∧
      c3state.pool ++ [3] = c3state.pool ++ [3] ∧
      c3state.running.erase (0, 3) = c3state.running.erase (0, 3)) := by
  have hstep : SweepStep ["c"] 1 c3state (.finish 0 3)
      { pool := c3state.pool ++ [3],
        running := c3state.running.erase (0, 3),
        next := c3state.next, launched := c3state.launched,
        spawned := c3state.spawned, sleeps := c3state.sleeps } :=
    SweepStep.finish c3state 0 3 (by simp [c3state])
  refine ⟨(sweep_worker_returns_gpu_C3 "c" 3 0 1).1,
    (sweep_worker_returns_gpu_C3 "c" 3 0 1).2.1, hstep, ?_⟩
  have := (sweep_worker_returns_gpu_C3 "c" 3 0 1).2.2 ["c"] 1 c3state _ 0 3 hstep
  exact ⟨this.1, rfl, rfl⟩

theorem reach_launch_trace {gpus : List Nat} {cfgs : List String}
    {repeats : Nat} {s : SweepState} (hr : Reach gpus cfgs repeats s) :
    s.launched.map Prod.fst = List.range s.next ∧
    s.spawned = s.launched.map
      (fun e => create_worker (cfgs.getD e.1 "") e.2 e.1 repeats) ∧
    s.next ≤ cfgs.length := by
  induction hr with
  | init => simp [initState]
  | @step s s' l hr hs ih =>
    cases hs with
    | launch g rest hpool hnext =>
      refine ⟨?_, ?_, hnext⟩
      · simp [List.range_succ, ih.1]
      · simp [ih.2.1]
    | finish i g hrun => exact ih

theorem cuda_split (g c r : String) :
    "CUDA_VISIBLE_DEVICES=" ++ g ++ " python run/main.py --cfg " ++ c ++
        " --repeat " ++ r ++ " > /dev/null 2>&1" =
      "CUDA_VISIBLE_DEVICES=" ++ g ++ " " ++
        ("python run/main.py --cfg " ++ c ++ " --repeat " ++ r ++
          " > /dev/null 2>&1") := by
  have hext : ∀ s t : String, s.data = t.data → s = t := by
    intro s t h
    cases s; cases t; simp at h; rw [h]
  apply hext
  have hd : (" python run/main.py --cfg " : String).data =
      (" " : String).data ++ ("python run/main.py --cfg " : String).data := by
    decide
  simp [String.data_append, hd]

/-- C6: the launcher starts exactly one worker per combination, in
enumeration order (the launch trace's experiment ids are `0, 1, 2, …` up
to the next index); the worker started for entry `(i, g)` is
`create_worker` of the `i`-th config file with the device `g` acquired
from the pool for that launch, and the command it runs sets
`CUDA_VISIBLE_DEVICES` to exactly that device. -/
theorem sweep_launch_order_C6 (gpus : List Nat) (cfgs : List String)
    (repeats : Nat) (s : SweepState) (hr : Reach gpus cfgs repeats s) :
    s.launched.map Prod.fst = List.range s.next ∧
    s.spawned = s.launched.map
      (fun e => create_worker (cfgs.getD e.1 "") e.2 e.1 repeats) ∧
    (∀ (c : String) (g' i' r' : Nat),
      WorkerAct.runCmd (command g' c r') ∈ create_worker c g' i' r' ∧
      ∃ tail, command g' c r' =
        "CUDA_VISIBLE_DEVICES=" ++ toString g' ++ " " ++ tail) := by
  obtain ⟨h1, h2, _⟩ := reach_launch_trace hr
  refine ⟨h1, h2, ?_⟩
  intro c g' i' r'
  constructor
  · simp [create_worker]
  · exact ⟨"python run/main.py --cfg " ++ c ++ " --repeat " ++ toString r' ++
      " > /dev/null 2>&1", cuda_split (toString g') c (toString r')⟩

theorem sweep_launch_order_C6_witness :
    Reach [0] ["c"] 1 (initState [0]) ∧
    ((initState [0]).launched.map Prod.fst = List.range (initState [0]).next ∧
    (initState [0]).spawned = (initState [0]).launched.map
      (fun e => create_worker (["c"].getD e.1 "") e.2 e.1 1) ∧
    (∀ (c : String) (g' i' r' : Nat),
      WorkerAct.runCmd (command g' c r') ∈ create_worker c g' i' r' ∧
      ∃ tail, command g' c r' =
        "CUDA_VISIBLE_DEVICES=" ++ toString g' ++ " " ++ tail)) :=
  ⟨Reach.init, sweep_launch_order_C6 [0] ["c"] 1 _ Reach.init⟩

/-- C7: every launch is followed by the same fixed sleep: in every
reachable state the performed sleeps are one constant `sleep_time`
(30 seconds, since `fast_sweep` is `False`) per launch, independent of
which configuration was dispatched. -/
theorem sweep_fixed_sleep_C7 (gpus : List Nat) (cfgs : List String)
    (repeats : Nat) (s : SweepState) (hr : Reach gpus cfgs repeats s) :
    s.sleeps = List.replicate s.next (sleep_time fast_sweep) ∧
    sleep_time fast_sweep = 30 := by
  refine ⟨?_, rfl⟩
  induction hr with
  | init => simp [initState]
  | @step s s' l hr hs ih =>
    cases hs with
    | launch g rest hpool hnext =>
      simp [ih, List.replicate_succ']
    | finish i g hrun => exact ih

theorem sweep_fixed_sleep_C7_witness :
    Reach [0] ["c"] 1 (initState [0]) ∧
    ((initState [0]).sleeps =
      List.replicate (initState [0]).next (sleep_time fast_sweep) ∧
    sleep_time fast_sweep = 30) :=
  ⟨Reach.init, sweep_fixed_sleep_C7 [0] ["c"] 1 _ Reach.init⟩

theorem get_append_left {α : Type} :
    ∀ (l1 l2 : List α) (i : Nat) (h : i < l1.length)
      (h2 : i < (l1 ++ l2).length),
      (l1 ++ l2).get ⟨i, h2⟩ = l1.get ⟨i, h⟩ := by
  intro l1
  induction l1 with
  | nil => intro l2 i h h2; simp at h
  | cons a l1 ih =>
    intro l2 i h h2
    cases i with
    | zero => rfl
    | succ i => exact ih l2 i (by simpa using h) (by simpa using h2)

theorem get_append_last {α : Type} :
    ∀ (l : List α) (e : α) (h : l.length < (l ++ [e]).length),
      (l ++ [e]).get ⟨l.length, h⟩ = e := by
  intro l
  induction l with
  | nil => intro e h; rfl
  | cons a l ih => intro e h; exact ih e (by simpa using h)

/-- Complete characterization of the checkpoint fold from an arbitrary
accumulator: either no epoch beats the running best (and the accumulator
is returned unchanged), or the result is the metric and snapshot of the
earliest epoch attaining the maximum among those that beat it. -/
theorem foldl_epochStep_cases {σ : Type} :
    ∀ (hist : List (ℚ × σ)) (b : ℚ) (sd : Option σ),
      ((∀ e ∈ hist, e.1 ≤ b) ∧ hist.foldl epochStep (b, sd) = (b, sd)) ∨
      (∃ i, ∃ hi : i < hist.length,
        hist.foldl epochStep (b, sd) =
          ((hist.get ⟨i, hi⟩).1, some (hist.get ⟨i, hi⟩).2) ∧
        b < (hist.get ⟨i, hi⟩).1 ∧
        (∀ j, ∀ hj : j < hist.length,
          (hist.get ⟨j, hj⟩).1 ≤ (hist.get ⟨i, hi⟩).1) ∧
        (∀ j, j < i → ∀ hj : j < hist.length,
          (hist.get ⟨j, hj⟩).1 < (hist.get ⟨i, hi⟩).1)) := by
  intro hist
  induction hist using List.reverseRecOn with
  | nil => intro b sd; exact Or.inl ⟨by simp, rfl⟩
  | append_singleton l e ih =>
    intro b sd
    rw [List.foldl_append]
    simp only [List.foldl_cons, List.foldl_nil]
    rcases ih b sd with ⟨hle, heq⟩ | ⟨i, hi, heq, hb, hmax, hfirst⟩
    · rw [heq]
      by_cases hgt : e.1 > b
      · have hupd : epochStep (b, sd) e = (e.1, some e.2) := by
          simp [epochStep, hgt]
        refine Or.inr ⟨l.length, by simp, ?_, ?_, ?_, ?_⟩
        · rw [get_append_last l e, hupd]
        · rw [get_append_last l e]; exact hgt
        · intro j hj
          rw [get_append_last l e]
          rcases Nat.lt_or_ge j l.length with hjl | hjl
          · rw [get_append_left l [e] j hjl hj]
            exact le_of_lt (lt_of_le_of_lt (hle _ (List.get_mem l j hjl)) hgt)
          · have : j = l.length := by
              have := hj; simp at this; omega
            subst this
            rw [get_append_last l e]
        · intro j hjlt hj
          rw [get_append_last l e]
          have hjl : j < l.length := hjlt
          rw [get_append_left l [e] j hjl hj]
          exact lt_of_le_of_lt (hle _ (List.get_mem l j hjl)) hgt
      · push_neg at hgt
        refine Or.inl ⟨?_, ?_⟩
        · intro x hx
          rcases List.mem_append.mp hx with hx | hx
          · exact hle x hx
          · rw [List.mem_singleton.mp hx]; exact hgt
        · simp [epochStep, not_lt.mpr hgt]
    · rw [heq]
      by_cases hgt : e.1 > (l.get ⟨i, hi⟩).1
      · have hupd : epochStep ((l.get ⟨i, hi⟩).1, some (l.get ⟨i, hi⟩).2) e =
            (e.1, some e.2) := by
          have hgt' : (l.get ⟨i, hi⟩).1 < e.1 := hgt
          simp [epochStep, hgt]
          intro h2
          exact absurd hgt' (not_lt.mpr (by simpa using h2))
        refine Or.inr ⟨l.length, by simp, ?_, ?_, ?_, ?_⟩
        · rw [get_append_last l e, hupd]
        · rw [get_append_last l e]
          exact lt_trans hb hgt
        · intro j hj
          rw [get_append_last l e]
          rcases Nat.lt_or_ge j l.length with hjl | hjl
          · rw [get_append_left l [e] j hjl hj]
            exact le_of_lt (lt_of_le_of_lt (hmax j hjl) hgt)
          · have : j = l.length := by
              have := hj; simp at this; omega
            subst this
            rw [get_append_last l e]
        · intro j hjlt hj
          rw [get_append_last l e]
          have hjl : j < l.length := hjlt
          rw [get_append_left l [e] j hjl hj]
          exact lt_of_le_of_lt (hmax j hjl) hgt
      · push_neg at hgt
        have hstay : epochStep ((l.get ⟨i, hi⟩).1, some (l.get ⟨i, hi⟩).2) e =
            ((l.get ⟨i, hi⟩).1, some (l.get ⟨i, hi⟩).2) := by
          simp [epochStep, not_lt.mpr hgt]
          intro h2
          exact absurd h2 (not_lt.mpr (by simpa using hgt))
        refine Or.inr ⟨i, by simp; omega, ?_, ?_, ?_, ?_⟩
        · rw [hstay, get_append_left l [e] i hi (by simp; omega)]
        · rw [get_append_left l [e] i hi (by simp; omega)]
          exact hb
        · intro j hj
          rw [get_append_left l [e] i hi (by simp; omega)]
          rcases Nat.lt_or_ge j l.length with hjl | hjl
          · rw [get_append_left l [e] j hjl hj]
            exact hmax j hjl
          · have : j = l.length := by
              have := hj; simp at this; omega
            subst this
            rw [get_append_last l e]
            exact hgt
        · intro j hjlt hj
          rw [get_append_left l [e] i hi (by simp; omega)]
          have hjl : j < l.length := lt_trans hjlt hi
          rw [get_append_left l [e] j hjl hj]
          exact hfirst j hjlt hjl

/-- C9: if some epoch attains a positive validation
`link_prediction_map`, the state dict loaded after the epoch loop is the
deep-copied snapshot of the earliest epoch achieving the maximum
validation metric over all epochs (ties resolve to the earlier epoch
because the comparison against the running best is strict). -/
theorem node2vec_best_checkpoint_C9 {σ : Type} (hist : List (ℚ × σ))
    (hpos : ∃ e ∈ hist, 0 < e.1) :
    ∃ i, ∃ hi : i < hist.length,
      loadedStateDict hist = some (hist.get ⟨i, hi⟩).2 ∧
      (runEpochs hist).1 = (hist.get ⟨i, hi⟩).1 ∧
      (∀ j, ∀ hj : j < hist.length,
        (hist.get ⟨j, hj⟩).1 ≤ (hist.get ⟨i, hi⟩).1) ∧
      (∀ j, j < i → ∀ hj : j < hist.length,
        (hist.get ⟨j, hj⟩).1 < (hist.get ⟨i, hi⟩).1) := by
  rcases foldl_epochStep_cases hist 0 none with ⟨hle, _⟩ | ⟨i, hi, heq, _, hmax, hfirst⟩
  · obtain ⟨e, he, hepos⟩ := hpos
    exact absurd (hle e he) (not_le.mpr hepos)
  · refine ⟨i, hi, ?_, ?_, hmax, hfirst⟩
    · simp [loadedStateDict, runEpochs, heq]
    · simp [runEpochs, heq]

theorem node2vec_best_checkpoint_C9_witness :
    (∃ e ∈ [((1 : ℚ), (10 : Nat)), (1, 20)], 0 < e.1) ∧
    (∃ i, ∃ hi : i < [((1 : ℚ), (10 : Nat)), (1, 20)].length,
      loadedStateDict [((1 : ℚ), (10 : Nat)), (1, 20)] =
        some ([((1 : ℚ), (10 : Nat)), (1, 20)].get ⟨i, hi⟩).2 ∧
      (runEpochs [((1 : ℚ), (10 : Nat)), (1, 20)]).1 =
        ([((1 : ℚ), (10 : Nat)), (1, 20)].get ⟨i, hi⟩).1 ∧
      (∀ j, ∀ hj : j < [((1 : ℚ), (10 : Nat)), (1, 20)].length,
        ([((1 : ℚ), (10 : Nat)), (1, 20)].get ⟨j, hj⟩).1 ≤
          ([((1 : ℚ), (10 : Nat)), (1, 20)].get ⟨i, hi⟩).1) ∧
      (∀ j, j < i → ∀ hj : j < [((1 : ℚ), (10 : Nat)), (1, 20)].length,
        ([((1 : ℚ), (10 : Nat)), (1, 20)].get ⟨j, hj⟩).1 <
          ([((1 : ℚ), (10 : Nat)), (1, 20)].get ⟨i, hi⟩).1)) :=
  ⟨⟨(1, 10), by simp, by norm_num⟩,
    node2vec_best_checkpoint_C9 [((1 : ℚ), (10 : Nat)), (1, 20)]
      ⟨(1, 10), by simp, by norm_num⟩⟩

/-- C10: if no epoch attains a validation metric strictly greater than 0
(in particular with `--epochs 0`, the empty history), the loop never
replaces `state_dict`, so the final `model.load_state_dict(state_dict)`
receives `None` rather than a saved snapshot. -/
theorem node2vec_no_checkpoint_C10 {σ : Type} (hist : List (ℚ × σ))
    (hnone : ∀ e ∈ hist, e.1 ≤ 0) :
    loadedStateDict hist = none ∧ runEpochs hist = (0, none) := by
  rcases foldl_epochStep_cases hist 0 none with ⟨_, heq⟩ | ⟨i, hi, _, hb, _, _⟩
  · exact ⟨by simp [loadedStateDict, runEpochs, heq], heq⟩
  · exact absurd (hnone _ (List.get_mem hist i hi)) (not_le.mpr hb)

theorem node2vec_no_checkpoint_C10_witness :
    (∀ e ∈ [((0 : ℚ), (42 : Nat))], e.1 ≤ 0) ∧
    (loadedStateDict [((0 : ℚ), (42 : Nat))] = none ∧
      runEpochs [((0 : ℚ), (42 : Nat))] = (0, none)) :=
  ⟨by simp, node2vec_no_checkpoint_C10 [((0 : ℚ), (42 : Nat))] (by simp)⟩

end Relbench
